import Mathlib

/-!
# Verification of the SGCC connected-components resolver

Shallow embedding of `tools/distributed_deduplication/dedup_utils.py`:
the Star-Graph-Connected-Components loop (`large_star_map`,
`large_star_reduce`, `small_star_map`, `small_star_reduce`,
`find_components`) over distributed multisets of node pairs, modelled as
`Multiset (ℕ × ℕ)` for the raw input and `Finset (ℕ × ℕ)` for the
working edge sets (the loop applies `distinct` after every phase).
-/

namespace SGCC

/-- `large_star_map(edge)` from the source: emit both directed views of the
edge. -/
def large_star_map (e : ℕ × ℕ) : List (ℕ × ℕ) := [(e.1, e.2), (e.2, e.1)]

/-- `small_star_map(edge)` from the source: orient the edge so the larger
endpoint comes first. -/
def small_star_map (e : ℕ × ℕ) : ℕ × ℕ := if e.2 ≤ e.1 then e else (e.2, e.1)

/-- The value set grouped under key `x` by `groupByKey` applied to `M`. -/
def nbrs (M : Finset (ℕ × ℕ)) (x : ℕ) : Finset ℕ :=
  (M.filter (fun p => p.1 = x)).image Prod.snd

/-- The key set produced by `groupByKey` applied to `M`. -/
def keys (M : Finset (ℕ × ℕ)) : Finset ℕ := M.image Prod.fst

/-- `minimum = min(nodes)` where `nodes = [x] + list(neighbors)`. -/
def groupMin (x : ℕ) (N : Finset ℕ) : ℕ :=
  (insert x N).min' (Finset.insert_nonempty x N)

/-- `large_star_reduce(group)` from the source: emit `(n, minimum)` for every
member of `nodes` strictly larger than the key `x` (only neighbors can be). -/
def large_star_reduce (x : ℕ) (N : Finset ℕ) : Finset (ℕ × ℕ) :=
  ((insert x N).filter (fun n => x < n)).image (fun n => (n, groupMin x N))

/-- `small_star_reduce(group)` from the source: emit `(n, minimum)` for every
member of `nodes` other than the minimum. -/
def small_star_reduce (x : ℕ) (N : Finset ℕ) : Finset (ℕ × ℕ) :=
  ((insert x N).filter (fun n => n ≠ groupMin x N)).image
    (fun n => (n, groupMin x N))

/-- `flatMap(large_star_map)` followed by `distinct`: the symmetric closure of
the edge set. -/
def mapped (E : Finset (ℕ × ℕ)) : Finset (ℕ × ℕ) :=
  E.biUnion (fun e => (large_star_map e).toFinset)

/-- The grouped-and-reduced large-star step applied to an already mapped
(symmetric) collection `M`, with the trailing `distinct`. -/
def largeStarF (M : Finset (ℕ × ℕ)) : Finset (ℕ × ℕ) :=
  (keys M).biUnion (fun x => large_star_reduce x (nbrs M x))

/-- One large-star phase:
`flatMap(large_star_map).groupByKey().flatMap(large_star_reduce).distinct()`. -/
def largeStar (E : Finset (ℕ × ℕ)) : Finset (ℕ × ℕ) := largeStarF (mapped E)

/-- `map(small_star_map)` followed by grouping; the `distinct` at the end of
the phase makes the intermediate multiset equivalent to its support. -/
def oriented (E : Finset (ℕ × ℕ)) : Finset (ℕ × ℕ) := E.image small_star_map

/-- One small-star phase:
`map(small_star_map).groupByKey().flatMap(small_star_reduce).distinct()`. -/
def smallStar (E : Finset (ℕ × ℕ)) : Finset (ℕ × ℕ) :=
  (keys (oriented E)).biUnion (fun x => small_star_reduce x (nbrs (oriented E) x))

/-- The `while True` loop of `find_components`, with explicit fuel standing
for the number of iterations we are willing to unfold (the source loop has no
cap; `none` means the fixed point was not reached within `fuel` iterations).
Each iteration computes `b` (large star), then `a` (small star), then the
symmetric difference `a.subtract(b).union(b.subtract(a))` and stops when it
is empty. -/
def find_components_aux : ℕ → Finset (ℕ × ℕ) → Option (Finset (ℕ × ℕ))
  | 0, _ => none
  | fuel + 1, a =>
    let b := largeStar a
    let a2 := smallStar b
    if (a2 \ b) ∪ (b \ a2) = ∅ then some a2 else find_components_aux fuel a2

/-- `flatMap(large_star_map)` on the raw input multiset (the input RDD is not
deduplicated before the first phase). -/
def mappedM (m : Multiset (ℕ × ℕ)) : Multiset (ℕ × ℕ) :=
  m.bind (fun e => (large_star_map e : List (ℕ × ℕ)))

/-- The neighbor multiset grouped under key `x` in the first, multiset-valued
large-star phase. -/
def nbrsM (m : Multiset (ℕ × ℕ)) (x : ℕ) : Multiset ℕ :=
  ((mappedM m).filter (fun p => p.1 = x)).map Prod.snd

/-- `min(nodes)` for the multiset-valued first phase: the minimum of a Python
list equals the minimum of its underlying set of elements. -/
def groupMinM (x : ℕ) (N : Multiset ℕ) : ℕ :=
  (x ::ₘ N).toFinset.min' (by simp)

/-- `large_star_reduce` on a raw neighbor multiset, with the phase-trailing
`distinct`. -/
def large_star_reduceM (x : ℕ) (N : Multiset ℕ) : Finset (ℕ × ℕ) :=
  (((x ::ₘ N).filter (fun n => x < n)).map (fun n => (n, groupMinM x N))).toFinset

/-- The first large-star phase, consuming the raw input multiset. -/
def largeStarM (m : Multiset (ℕ × ℕ)) : Finset (ℕ × ℕ) :=
  ((mappedM m).toFinset.image Prod.fst).biUnion
    (fun x => large_star_reduceM x (nbrsM m x))

/-- `find_components(edges)` from the source, with explicit iteration fuel:
the first iteration consumes the raw input multiset, every later one the
deduplicated working set. -/
def find_components (fuel : ℕ) (m : Multiset (ℕ × ℕ)) :
    Option (Finset (ℕ × ℕ)) :=
  match fuel with
  | 0 => none
  | fuel + 1 =>
    let b := largeStarM m
    let a2 := smallStar b
    if (a2 \ b) ∪ (b \ a2) = ∅ then some a2 else find_components_aux fuel a2

/-- One undirected step through the edge set `E`. -/
def adj (E : Finset (ℕ × ℕ)) (u v : ℕ) : Prop := (u, v) ∈ E ∨ (v, u) ∈ E

/-- Reachability (undirected, reflexive-transitive closure) through `E`: the
connectivity relation whose classes are the components of the graph. -/
def conn (E : Finset (ℕ × ℕ)) : ℕ → ℕ → Prop := Relation.ReflTransGen (adj E)

/-- The minimum identifier visible from `v` in `E`: the minimum of `v`'s
closed symmetric neighborhood (`v` itself when `v` is isolated).  This is
exactly the value `large_star_reduce` pairs `v`'s larger neighbors with. -/
def nu (E : Finset (ℕ × ℕ)) (v : ℕ) : ℕ := groupMin v (nbrs (mapped E) v)

/-- The node set of the edge collection `E` (both endpoints, via the
symmetric closure). -/
def verts (E : Finset (ℕ × ℕ)) : Finset ℕ := keys (mapped E)

section Membership

variable {E M : Finset (ℕ × ℕ)} {x y u v n m : ℕ} {N : Finset ℕ}

lemma mem_mapped : (u, v) ∈ mapped E ↔ (u, v) ∈ E ∨ (v, u) ∈ E := by
  simp only [mapped, Finset.mem_biUnion, large_star_map, List.toFinset_cons,
    List.toFinset_nil, insert_emptyc_eq, Finset.mem_insert, Finset.mem_singleton]
  constructor
  · rintro ⟨⟨a, b⟩, he, h | h⟩ <;>
      simp only [Prod.mk.injEq] at h <;>
      obtain ⟨h1, h2⟩ := h <;> subst h1 <;> subst h2
    · exact Or.inl he
    · exact Or.inr he
  · rintro (h | h)
    · exact ⟨(u, v), h, Or.inl rfl⟩
    · exact ⟨(v, u), h, Or.inr rfl⟩

lemma mapped_symm (h : (u, v) ∈ mapped E) : (v, u) ∈ mapped E := by
  rw [mem_mapped] at h ⊢
  exact h.symm

lemma mem_nbrs : y ∈ nbrs M x ↔ (x, y) ∈ M := by
  simp only [nbrs, Finset.mem_image, Finset.mem_filter]
  constructor
  · rintro ⟨p, ⟨hp, h1⟩, h2⟩
    rwa [show p = (x, y) from Prod.ext h1 h2] at hp
  · intro h
    exact ⟨(x, y), ⟨h, rfl⟩, rfl⟩

lemma mem_keys : x ∈ keys M ↔ ∃ y, (x, y) ∈ M := by
  simp only [keys, Finset.mem_image]
  constructor
  · rintro ⟨p, hp, h1⟩
    exact ⟨p.2, by rwa [show (x, p.2) = p from Prod.ext h1.symm rfl]⟩
  · rintro ⟨y, hy⟩
    exact ⟨(x, y), hy, rfl⟩

lemma groupMin_le_self : groupMin x N ≤ x :=
  Finset.min'_le _ _ (Finset.mem_insert_self x N)

lemma groupMin_le (h : y ∈ N) : groupMin x N ≤ y :=
  Finset.min'_le _ _ (Finset.mem_insert_of_mem h)

lemma groupMin_mem : groupMin x N ∈ insert x N :=
  Finset.min'_mem _ _

lemma le_groupMin (hx : m ≤ x) (hN : ∀ y ∈ N, m ≤ y) : m ≤ groupMin x N := by
  apply Finset.le_min'
  intro y hy
  rcases Finset.mem_insert.mp hy with h | h
  · exact h ▸ hx
  · exact hN y h

lemma nu_le_self : nu E v ≤ v := groupMin_le_self

lemma nu_le (h : (v, u) ∈ mapped E) : nu E v ≤ u :=
  groupMin_le (mem_nbrs.mpr h)

lemma nu_eq_or_mem : nu E v = v ∨ (v, nu E v) ∈ mapped E := by
  rcases Finset.mem_insert.mp (groupMin_mem (x := v) (N := nbrs (mapped E) v)) with h | h
  · exact Or.inl h
  · exact Or.inr (mem_nbrs.mp h)

lemma mem_verts : v ∈ verts E ↔ ∃ u, (v, u) ∈ E ∨ (u, v) ∈ E := by
  simp only [verts, mem_keys]
  constructor
  · rintro ⟨y, hy⟩
    exact ⟨y, mem_mapped.mp hy⟩
  · rintro ⟨u, hu⟩
    exact ⟨u, mem_mapped.mpr hu⟩

lemma mem_largeStar :
    (n, m) ∈ largeStar E ↔ ∃ x, (x, n) ∈ mapped E ∧ x < n ∧ m = nu E x := by
  simp only [largeStar, largeStarF, Finset.mem_biUnion, large_star_reduce,
    Finset.mem_image, Finset.mem_filter]
  constructor
  · rintro ⟨x, hx, n', ⟨hn', hlt⟩, heq⟩
    obtain ⟨h1, h2⟩ := Prod.ext_iff.mp heq
    subst h1
    rcases Finset.mem_insert.mp hn' with h | h
    · exact absurd h (by omega)
    · exact ⟨x, mem_nbrs.mp h, hlt, h2.symm⟩
  · rintro ⟨x, hx, hlt, hm⟩
    refine ⟨x, mem_keys.mpr ⟨n, hx⟩, n,
      ⟨Finset.mem_insert_of_mem (mem_nbrs.mpr hx), hlt⟩, ?_⟩
    rw [hm]
    rfl

lemma mem_oriented : (x, y) ∈ oriented E ↔ y ≤ x ∧ ((x, y) ∈ E ∨ (y, x) ∈ E) := by
  simp only [oriented, Finset.mem_image]
  constructor
  · rintro ⟨⟨a, b⟩, hq, heq⟩
    simp only [small_star_map] at heq
    split at heq
    · obtain ⟨h1, h2⟩ := Prod.ext_iff.mp heq
      subst h1; subst h2
      exact ⟨by assumption, Or.inl hq⟩
    · obtain ⟨h1, h2⟩ := Prod.ext_iff.mp heq
      dsimp at h1 h2
      subst h1; subst h2
      exact ⟨by omega, Or.inr hq⟩
  · rintro ⟨hle, h | h⟩
    · exact ⟨(x, y), h, by simp [small_star_map, hle]⟩
    · refine ⟨(y, x), h, ?_⟩
      by_cases hxy : x ≤ y
      · have hx : x = y := le_antisymm hxy hle
        subst hx
        simp [small_star_map]
      · simp [small_star_map, hxy]

lemma mem_smallStar :
    (n, m) ∈ smallStar E ↔ ∃ x, x ∈ keys (oriented E) ∧
      n ∈ insert x (nbrs (oriented E) x) ∧
      n ≠ groupMin x (nbrs (oriented E) x) ∧
      m = groupMin x (nbrs (oriented E) x) := by
  simp only [smallStar, Finset.mem_biUnion, small_star_reduce, Finset.mem_image,
    Finset.mem_filter]
  constructor
  · rintro ⟨x, hx, n', ⟨hn', hne⟩, heq⟩
    obtain ⟨h1, h2⟩ := Prod.ext_iff.mp heq
    subst h1
    exact ⟨x, hx, hn', hne, h2.symm⟩
  · rintro ⟨x, hx, hn, hne, hm⟩
    exact ⟨x, hx, n, ⟨hn, hne⟩, by rw [hm]⟩

lemma largeStar_decreasing (h : (n, m) ∈ largeStar E) : m < n := by
  obtain ⟨x, _, hlt, hm⟩ := mem_largeStar.mp h
  have : m ≤ x := hm ▸ nu_le_self
  omega

lemma smallStar_decreasing (h : (n, m) ∈ smallStar E) : m < n := by
  obtain ⟨x, _, hn, hne, hm⟩ := mem_smallStar.mp h
  have hle : m ≤ n := by
    subst hm
    rcases Finset.mem_insert.mp hn with h | h
    · exact h ▸ groupMin_le_self
    · exact groupMin_le h
  have : n ≠ m := fun h => hne (h ▸ hm ▸ rfl)
  omega

end Membership

section Connectivity

variable {E F : Finset (ℕ × ℕ)} {u v w n m x : ℕ}

lemma adj_symm (h : adj E u v) : adj E v u := h.symm

lemma conn_refl : conn E v v := Relation.ReflTransGen.refl

lemma conn_of_adj (h : adj E u v) : conn E u v := Relation.ReflTransGen.single h

lemma conn_trans (h1 : conn E u v) (h2 : conn E v w) : conn E u w :=
  Relation.ReflTransGen.trans h1 h2

lemma conn_symm (h : conn E u v) : conn E v u := by
  induction h with
  | refl => exact conn_refl
  | tail _ hstep ih => exact conn_trans (conn_of_adj (adj_symm hstep)) ih

lemma conn_of_mem (h : (u, v) ∈ E) : conn E u v := conn_of_adj (Or.inl h)

/-- Lifting a one-step simulation to the whole connectivity relation. -/
lemma conn_mono (hstep : ∀ a b, adj E a b → conn F a b) (h : conn E u v) :
    conn F u v := by
  induction h with
  | refl => exact conn_refl
  | tail _ hstep2 ih => exact conn_trans ih (hstep _ _ hstep2)

lemma adj_of_mem_mapped (h : (u, v) ∈ mapped E) : adj E u v := mem_mapped.mp h

lemma largeStar_sound (h : adj (largeStar E) n m) : conn E n m := by
  have key : ∀ a b, (a, b) ∈ largeStar E → conn E a b := by
    intro a b hab
    obtain ⟨x, hx, _, hb⟩ := mem_largeStar.mp hab
    have hxa : conn E a x := conn_symm (conn_of_adj (adj_of_mem_mapped hx))
    have hxb : conn E x b := by
      rcases (nu_eq_or_mem (E := E) (v := x)) with h | h
      · rw [hb, h]; exact conn_refl
      · rw [hb]; exact conn_of_adj (adj_of_mem_mapped h)
    exact conn_trans hxa hxb
  rcases h with h | h
  · exact key _ _ h
  · exact conn_symm (key _ _ h)

lemma smallStar_sound (h : adj (smallStar E) n m) : conn E n m := by
  have horient : ∀ a b, (a, b) ∈ oriented E → conn E a b := by
    intro a b hab
    obtain ⟨_, h | h⟩ := mem_oriented.mp hab
    · exact conn_of_adj (Or.inl h)
    · exact conn_of_adj (Or.inr h)
  have key : ∀ a b, (a, b) ∈ smallStar E → conn E a b := by
    intro a b hab
    obtain ⟨x, _, ha, _, hb⟩ := mem_smallStar.mp hab
    have hin : ∀ z, z ∈ insert x (nbrs (oriented E) x) → conn E x z := by
      intro z hz
      rcases Finset.mem_insert.mp hz with h | h
      · rw [h]; exact conn_refl
      · exact horient x z (mem_nbrs.mp h)
    have hxa : conn E x a := hin a ha
    have hxb : conn E x b := hin _ (hb ▸ groupMin_mem)
    exact conn_trans (conn_symm hxa) hxb
  rcases h with h | h
  · exact key _ _ h
  · exact conn_symm (key _ _ h)

/-- Every node is connected, inside the large-star output, to the minimum of
its closed neighborhood in the input: the pointer established by
`large_star_reduce` never disconnects a node from its local minimum. -/
lemma conn_largeStar_nu (E : Finset (ℕ × ℕ)) :
    ∀ x, conn (largeStar E) x (nu E x) := by
  intro x
  induction x using Nat.strong_induction_on with
  | _ x ih =>
    rcases eq_or_lt_of_le (nu_le_self (E := E) (v := x)) with heq | hlt
    · rw [heq]; exact conn_refl
    · have hmem : (x, nu E x) ∈ mapped E := by
        rcases nu_eq_or_mem (E := E) (v := x) with h | h
        · omega
        · exact h
      have hmem2 : (nu E x, x) ∈ mapped E := mapped_symm hmem
      have hedge : (x, nu E (nu E x)) ∈ largeStar E :=
        mem_largeStar.mpr ⟨nu E x, hmem2, hlt, rfl⟩
      have h1 : conn (largeStar E) x (nu E (nu E x)) := conn_of_mem hedge
      have h2 : conn (largeStar E) (nu E x) (nu E (nu E x)) := ih (nu E x) hlt
      exact conn_trans h1 (conn_symm h2)

lemma largeStar_complete (h : adj E u v) : conn (largeStar E) u v := by
  have key : ∀ a b, (a, b) ∈ mapped E → a < b → conn (largeStar E) a b := by
    intro a b hab hlt
    have hedge : (b, nu E a) ∈ largeStar E :=
      mem_largeStar.mpr ⟨a, hab, hlt, rfl⟩
    exact conn_trans (conn_largeStar_nu E a) (conn_symm (conn_of_mem hedge))
  have hm : (u, v) ∈ mapped E := mem_mapped.mpr h
  rcases Nat.lt_trichotomy u v with hlt | heq | hgt
  · exact key u v hm hlt
  · rw [heq]; exact conn_refl
  · exact conn_symm (key v u (mapped_symm hm) hgt)

lemma smallStar_complete (h : adj E u v) : conn (smallStar E) u v := by
  rcases eq_or_ne u v with heq | hne
  · rw [heq]; exact conn_refl
  wlog hgt : v < u generalizing u v
  · exact conn_symm (this (adj_symm h) hne.symm (by omega))
  have hor : (u, v) ∈ oriented E := by
    rw [mem_oriented]
    exact ⟨le_of_lt hgt, h⟩
  have hkey : u ∈ keys (oriented E) := mem_keys.mpr ⟨v, hor⟩
  have hvN : v ∈ nbrs (oriented E) u := mem_nbrs.mpr hor
  have hglev : groupMin u (nbrs (oriented E) u) ≤ v := groupMin_le hvN
  have hgltu : groupMin u (nbrs (oriented E) u) < u := lt_of_le_of_lt hglev hgt
  have hu : (u, groupMin u (nbrs (oriented E) u)) ∈ smallStar E :=
    mem_smallStar.mpr ⟨u, hkey, Finset.mem_insert_self u _, by omega, rfl⟩
  rcases eq_or_ne v (groupMin u (nbrs (oriented E) u)) with hvg | hvg
  · rw [hvg]
    exact conn_of_mem hu
  · have hv : (v, groupMin u (nbrs (oriented E) u)) ∈ smallStar E :=
      mem_smallStar.mpr ⟨u, hkey, Finset.mem_insert_of_mem hvN, hvg, rfl⟩
    exact conn_trans (conn_of_mem hu) (conn_symm (conn_of_mem hv))

/-- The large-star phase preserves the connectivity relation exactly. -/
lemma conn_largeStar_iff : conn (largeStar E) u v ↔ conn E u v :=
  ⟨conn_mono (fun _ _ h => largeStar_sound h),
   conn_mono (fun _ _ h => largeStar_complete h)⟩

/-- The small-star phase preserves the connectivity relation exactly. -/
lemma conn_smallStar_iff : conn (smallStar E) u v ↔ conn E u v :=
  ⟨conn_mono (fun _ _ h => smallStar_sound h),
   conn_mono (fun _ _ h => smallStar_complete h)⟩

end Connectivity

section Monotone

variable {E : Finset (ℕ × ℕ)} {u v n m : ℕ}

/-- The per-node neighborhood minimum never increases across a large-star
phase. -/
lemma nu_largeStar_le (E : Finset (ℕ × ℕ)) (v : ℕ) : nu (largeStar E) v ≤ nu E v := by
  rcases eq_or_lt_of_le (nu_le_self (E := E) (v := v)) with heq | hlt
  · rw [heq]; exact nu_le_self
  · have hmem : (v, nu E v) ∈ mapped E := by
      rcases nu_eq_or_mem (E := E) (v := v) with h | h
      · omega
      · exact h
    have hedge : (v, nu E (nu E v)) ∈ largeStar E :=
      mem_largeStar.mpr ⟨nu E v, mapped_symm hmem, hlt, rfl⟩
    have h1 : nu (largeStar E) v ≤ nu E (nu E v) :=
      nu_le (mem_mapped.mpr (Or.inl hedge))
    exact le_trans h1 nu_le_self

/-- The per-node neighborhood minimum never increases across a small-star
phase. -/
lemma nu_smallStar_le (E : Finset (ℕ × ℕ)) (v : ℕ) : nu (smallStar E) v ≤ nu E v := by
  rcases eq_or_lt_of_le (nu_le_self (E := E) (v := v)) with heq | hlt
  · rw [heq]; exact nu_le_self
  · have hmem : (v, nu E v) ∈ mapped E := by
      rcases nu_eq_or_mem (E := E) (v := v) with h | h
      · omega
      · exact h
    have hor : (v, nu E v) ∈ oriented E := by
      rw [mem_oriented]
      exact ⟨le_of_lt hlt, mem_mapped.mp hmem⟩
    have hkey : v ∈ keys (oriented E) := mem_keys.mpr ⟨nu E v, hor⟩
    have hN : nu E v ∈ nbrs (oriented E) v := mem_nbrs.mpr hor
    have hgle : groupMin v (nbrs (oriented E) v) ≤ nu E v := groupMin_le hN
    have hedge : (v, groupMin v (nbrs (oriented E) v)) ∈ smallStar E :=
      mem_smallStar.mpr ⟨v, hkey, Finset.mem_insert_self v _, by omega, rfl⟩
    exact le_trans (nu_le (mem_mapped.mpr (Or.inl hedge))) hgle

lemma verts_largeStar_subset (E : Finset (ℕ × ℕ)) : verts (largeStar E) ⊆ verts E := by
  intro v hv
  obtain ⟨u, hu⟩ := mem_verts.mp hv
  rcases hu with h | h
  · obtain ⟨x, hx, _, _⟩ := mem_largeStar.mp h
    exact mem_verts.mpr ⟨x, mem_mapped.mp (mapped_symm hx)⟩
  · obtain ⟨x, hx, hlt, hnu⟩ := mem_largeStar.mp h
    rcases nu_eq_or_mem (E := E) (v := x) with he | he
    · rw [hnu, he]
      exact mem_verts.mpr ⟨u, mem_mapped.mp hx⟩
    · rw [hnu]
      exact mem_verts.mpr ⟨x, mem_mapped.mp (mapped_symm he)⟩

lemma verts_smallStar_subset (E : Finset (ℕ × ℕ)) : verts (smallStar E) ⊆ verts E := by
  have horient : ∀ a b, (a, b) ∈ oriented E → a ∈ verts E ∧ b ∈ verts E := by
    intro a b hab
    obtain ⟨_, h⟩ := mem_oriented.mp hab
    exact ⟨mem_verts.mpr ⟨b, h⟩, mem_verts.mpr ⟨a, h.symm⟩⟩
  have hmem : ∀ z x, x ∈ keys (oriented E) →
      z ∈ insert x (nbrs (oriented E) x) → z ∈ verts E := by
    intro z x hx hz
    rcases Finset.mem_insert.mp hz with h | h
    · obtain ⟨y, hy⟩ := mem_keys.mp hx
      exact h ▸ (horient x y hy).1
    · exact (horient x z (mem_nbrs.mp h)).2
  intro v hv
  obtain ⟨u, hu⟩ := mem_verts.mp hv
  rcases hu with h | h
  · obtain ⟨x, hx, hn, _, _⟩ := mem_smallStar.mp h
    exact hmem v x hx hn
  · obtain ⟨x, hx, _, _, hm⟩ := mem_smallStar.mp h
    exact hmem v x hx (hm ▸ groupMin_mem)

end Monotone

section FixedPoint

variable {S : Finset (ℕ × ℕ)} {u v w n m x t : ℕ}

/-- A working edge set whose pairs all point strictly downward, as every
small-star (and large-star) output does. -/
def Decreasing (S : Finset (ℕ × ℕ)) : Prop := ∀ p ∈ S, p.2 < p.1

lemma largeStar_decreasingSet (E : Finset (ℕ × ℕ)) : Decreasing (largeStar E) :=
  fun p hp => largeStar_decreasing (n := p.1) (m := p.2) (by simpa using hp)

lemma smallStar_decreasingSet (E : Finset (ℕ × ℕ)) : Decreasing (smallStar E) :=
  fun p hp => smallStar_decreasing (n := p.1) (m := p.2) (by simpa using hp)

/-- On a decreasing edge set `small_star_map` is the identity, so the
small-star orientation step leaves the set unchanged. -/
lemma oriented_eq_self (h : Decreasing S) : oriented S = S := by
  apply Finset.ext
  intro ⟨a, b⟩
  rw [mem_oriented]
  constructor
  · rintro ⟨_, hab | hab⟩
    · exact hab
    · have := h _ hab
      simp only at this
      omega
  · intro hab
    exact ⟨le_of_lt (h _ hab), Or.inl hab⟩

/-- Membership in the small-star image of a decreasing set, phrased directly
over the set itself. -/
lemma mem_smallStar_dec (hdec : Decreasing S) :
    (n, m) ∈ smallStar S ↔ ∃ x, x ∈ keys S ∧ n ∈ insert x (nbrs S x) ∧
      n ≠ groupMin x (nbrs S x) ∧ m = groupMin x (nbrs S x) := by
  rw [mem_smallStar, oriented_eq_self hdec]

/-- Every key of a decreasing set `S` fixed by the small-star phase has
exactly one outgoing edge: a small-star fixed point is a functional graph.
If some key had two targets, the largest such key would force a yet larger
key above it, which is impossible in a finite set. -/
lemma fixed_functional (hdec : Decreasing S) (hfix : smallStar S = S) :
    ∀ n t1 t2, (n, t1) ∈ S → (n, t2) ∈ S → t1 = t2 := by
  by_contra hbad
  push_neg at hbad
  set bad : Finset ℕ := (keys S).filter (fun n => 1 < (nbrs S n).card) with hbaddef
  have hbadne : bad.Nonempty := by
    obtain ⟨n, t1, t2, h1, h2, hne⟩ := hbad
    refine ⟨n, Finset.mem_filter.mpr ⟨mem_keys.mpr ⟨t1, h1⟩, ?_⟩⟩
    exact Finset.one_lt_card.mpr
      ⟨t1, mem_nbrs.mpr h1, t2, mem_nbrs.mpr h2, hne⟩
  set n := bad.max' hbadne with hndef
  have hn : n ∈ bad := Finset.max'_mem _ _
  obtain ⟨hnkey, hncard⟩ := Finset.mem_filter.mp hn
  have hNne : (nbrs S n).Nonempty := Finset.card_pos.mp (by omega)
  set t := (nbrs S n).max' hNne with htdef
  have htmem : t ∈ nbrs S n := Finset.max'_mem _ _
  have htS : (n, t) ∈ S := mem_nbrs.mp htmem
  have hmlt : (nbrs S n).min' hNne < t := Finset.min'_lt_max'_of_card _ hncard
  have hgmin : groupMin n (nbrs S n) = (nbrs S n).min' hNne := by
    apply le_antisymm
    · exact groupMin_le (Finset.min'_mem _ _)
    · apply Finset.le_min'
      intro y hy
      rcases Finset.mem_insert.mp hy with h | h
      · have := hdec _ (mem_nbrs.mp (Finset.min'_mem _ hNne))
        simp only at this
        omega
      · exact Finset.min'_le _ _ h
  have htne : t ≠ groupMin n (nbrs S n) := by omega
  obtain ⟨x, hxkey, hnx, hnne, htval⟩ :=
    (mem_smallStar_dec hdec).mp (hfix ▸ htS)
  rcases Finset.mem_insert.mp hnx with hnx | hnx
  · subst hnx
    exact htne htval
  · have hxS : (x, n) ∈ S := mem_nbrs.mp hnx
    have hnltx : n < x := hdec _ hxS
    have htn : t < n := hdec _ htS
    have htx : t ∈ nbrs S x := by
      rcases Finset.mem_insert.mp (groupMin_mem (x := x) (N := nbrs S x)) with h | h
      · rw [← htval] at h
        omega
      · rw [← htval] at h
        exact h
    have hxbad : x ∈ bad := by
      refine Finset.mem_filter.mpr ⟨hxkey, ?_⟩
      exact Finset.one_lt_card.mpr ⟨n, hnx, t, htx, by omega⟩
    have := Finset.le_max' bad x hxbad
    omega

/-- A decreasing functional graph is a fixed point of the small-star phase:
each group consists of a single neighbor, which is re-emitted unchanged. -/
lemma smallStar_eq_of_functional (hdec : Decreasing S)
    (hfun : ∀ n t1 t2, (n, t1) ∈ S → (n, t2) ∈ S → t1 = t2) :
    smallStar S = S := by
  apply Finset.ext
  intro ⟨a, b⟩
  rw [mem_smallStar_dec hdec]
  constructor
  · rintro ⟨x, hxkey, ha, hane, hb⟩
    obtain ⟨y, hy⟩ := mem_keys.mp hxkey
    have hNx : nbrs S x = {y} := by
      apply Finset.ext
      intro z
      simp only [Finset.mem_singleton, mem_nbrs]
      exact ⟨fun h => hfun x z y h hy, fun h => h ▸ hy⟩
    have hylt : y < x := hdec _ hy
    have hgm : groupMin x (nbrs S x) = y := by
      rw [hNx]
      apply le_antisymm
      · exact groupMin_le (Finset.mem_singleton_self y)
      · exact le_groupMin (le_of_lt hylt) (fun z hz => le_of_eq (Finset.mem_singleton.mp hz).symm)
    rw [hNx] at ha
    rcases Finset.mem_insert.mp ha with h | h
    · subst h
      rw [hb, hgm]
      exact hy
    · rw [Finset.mem_singleton] at h
      subst h
      rw [hgm] at hane
      exact absurd rfl hane
  · intro hab
    have hNa : nbrs S a = {b} := by
      apply Finset.ext
      intro z
      simp only [Finset.mem_singleton, mem_nbrs]
      exact ⟨fun h => hfun a z b h hab, fun h => h ▸ hab⟩
    have hblt : b < a := hdec _ hab
    have hgm : groupMin a (nbrs S a) = b := by
      rw [hNa]
      apply le_antisymm
      · exact groupMin_le (Finset.mem_singleton_self b)
      · exact le_groupMin (le_of_lt hblt) (fun z hz => le_of_eq (Finset.mem_singleton.mp hz).symm)
    exact ⟨a, mem_keys.mpr ⟨b, hab⟩, Finset.mem_insert_self a _, by omega, hgm.symm⟩

/-- Directed reachability along the stored (downward) edges. -/
def dreach (S : Finset (ℕ × ℕ)) : ℕ → ℕ → Prop :=
  Relation.ReflTransGen (fun p q => (p, q) ∈ S)

lemma dreach_le (h : dreach S u v) (hdec : Decreasing S) : v ≤ u := by
  induction h with
  | refl => exact le_refl _
  | tail _ hstep ih => exact le_trans (le_of_lt (hdec _ hstep)) ih

/-- In a small-star fixed point, any node connected to a node `n` without
outgoing edges reaches `n` along the stored directed edges. -/
lemma conn_dreach_root (hdec : Decreasing S) (hfix : smallStar S = S)
    (hroot : ∀ t, (n, t) ∉ S) (h : conn S n v) : dreach S v n := by
  induction h with
  | refl => exact Relation.ReflTransGen.refl
  | tail _ hstep ih =>
    rename_i w v _
    rcases hstep with hwv | hvw
    · rcases Relation.ReflTransGen.cases_head ih with heq | ⟨u, hwu, hun⟩
      · exact absurd (heq ▸ hwv) (hroot v)
      · have : v = u := fixed_functional hdec hfix w v u hwv hwu
        exact this ▸ hun
    · exact Relation.ReflTransGen.head hvw ih

/-- A node of a small-star fixed point with no outgoing edge is the minimum
of its connected component. -/
lemma root_min (hdec : Decreasing S) (hfix : smallStar S = S)
    (hroot : ∀ t, (n, t) ∉ S) (h : conn S n v) : n ≤ v :=
  dreach_le (conn_dreach_root hdec hfix hroot h) hdec

end FixedPoint

section Driver

variable {a b S : Finset (ℕ × ℕ)} {u v n m : ℕ}

lemma symmdiff_empty_iff : (a \ b) ∪ (b \ a) = ∅ ↔ a = b := by
  constructor
  · intro h
    obtain ⟨h1, h2⟩ := Finset.union_eq_empty.mp h
    exact Finset.Subset.antisymm (Finset.sdiff_eq_empty_iff_subset.mp h1)
      (Finset.sdiff_eq_empty_iff_subset.mp h2)
  · intro h
    subst h
    simp

lemma find_components_aux_succ (n : ℕ) (a : Finset (ℕ × ℕ)) :
    find_components_aux (n + 1) a =
      if (smallStar (largeStar a) \ largeStar a) ∪
          (largeStar a \ smallStar (largeStar a)) = ∅
      then some (smallStar (largeStar a))
      else find_components_aux n (smallStar (largeStar a)) := rfl

lemma find_components_succ (n : ℕ) (m : Multiset (ℕ × ℕ)) :
    find_components (n + 1) m =
      if (smallStar (largeStarM m) \ largeStarM m) ∪
          (largeStarM m \ smallStar (largeStarM m)) = ∅
      then some (smallStar (largeStarM m))
      else find_components_aux n (smallStar (largeStarM m)) := rfl

/-- Everything the loop guarantees about a returned set: it is a small-star
fixed point of downward-pointing edges, it has the same connectivity relation
as the loop's input, and it mentions no new node. -/
lemma find_components_aux_spec :
    ∀ fuel a S, find_components_aux fuel a = some S →
      Decreasing S ∧ smallStar S = S ∧ (∀ u v, conn S u v ↔ conn a u v) ∧
      verts S ⊆ verts a := by
  intro fuel
  induction fuel with
  | zero =>
    intro a S h
    simp [find_components_aux] at h
  | succ fuel ih =>
    intro a S h
    rw [find_components_aux_succ] at h
    split at h
    · rename_i hstop
      have hS : S = smallStar (largeStar a) := (Option.some.inj h).symm
      have hab : smallStar (largeStar a) = largeStar a := symmdiff_empty_iff.mp hstop
      refine ⟨hS ▸ smallStar_decreasingSet _, ?_, ?_, ?_⟩
      · rw [hS, hab]
        exact hab
      · intro u v
        rw [hS, conn_smallStar_iff, conn_largeStar_iff]
      · rw [hS]
        exact subset_trans (verts_smallStar_subset _) (verts_largeStar_subset _)
    · obtain ⟨hdec, hfix, hconn, hverts⟩ := ih _ _ h
      refine ⟨hdec, hfix, ?_, ?_⟩
      · intro u v
        rw [hconn u v, conn_smallStar_iff, conn_largeStar_iff]
      · exact subset_trans hverts
          (subset_trans (verts_smallStar_subset _) (verts_largeStar_subset _))

/-- The loop body has no iteration cap: a run that converges keeps its result
under any additional iteration budget. -/
lemma find_components_aux_mono :
    ∀ fuel a S, find_components_aux fuel a = some S →
      ∀ k, find_components_aux (fuel + k) a = some S := by
  intro fuel
  induction fuel with
  | zero =>
    intro a S h
    simp [find_components_aux] at h
  | succ fuel ih =>
    intro a S h k
    rw [find_components_aux_succ] at h
    rw [show fuel + 1 + k = (fuel + k) + 1 from by omega, find_components_aux_succ]
    split at h
    · rename_i hstop
      rw [if_pos hstop]
      exact h
    · rename_i hstop
      rw [if_neg hstop]
      exact ih _ _ h k

/-- When an iteration fails the convergence check, some node of the working
graph strictly improves its neighborhood minimum during that iteration.
Otherwise every large-star target would be a stable local root, and the
small-star pass over a non-functional large-star output would hand one of
those roots a strictly smaller neighbor. -/
lemma strict_drop (a : Finset (ℕ × ℕ))
    (hne : smallStar (largeStar a) ≠ largeStar a) :
    ∃ v ∈ verts a, nu (smallStar (largeStar a)) v < nu a v := by
  by_contra hno
  push_neg at hno
  have hstab : ∀ v, v ∈ verts a →
      nu (smallStar (largeStar a)) v = nu a v ∧ nu (largeStar a) v = nu a v := by
    intro v hv
    have h1 := nu_smallStar_le (largeStar a) v
    have h2 := nu_largeStar_le a v
    have h3 := hno v hv
    omega
  have hbdec : Decreasing (largeStar a) := largeStar_decreasingSet a
  have hnotfun : ¬ (∀ n t1 t2, (n, t1) ∈ largeStar a → (n, t2) ∈ largeStar a →
      t1 = t2) := by
    intro hfun
    exact hne (smallStar_eq_of_functional hbdec hfun)
  push_neg at hnotfun
  obtain ⟨n, t1, t2, h1, h2, hne12⟩ := hnotfun
  obtain ⟨x1, hx1, hx1lt, ht1⟩ := mem_largeStar.mp h1
  obtain ⟨x2, hx2, hx2lt, ht2⟩ := mem_largeStar.mp h2
  have key : ∀ xa ta xb tb, (xa, n) ∈ mapped a → xa < n → ta = nu a xa →
      (xb, n) ∈ mapped a → xb < n → tb = nu a xb → ta < tb → False := by
    intro xa ta xb tb hxa hxalt hta hxb hxblt htb hlt
    have hnv : n ∈ verts a := mem_keys.mpr ⟨xa, mapped_symm hxa⟩
    have hstabn := (hstab n hnv).2
    have htbroot : nu a tb = tb := by
      rcases eq_or_lt_of_le (nu_le_self (E := a) (v := xb)) with he | hl
      · rw [htb, he]
        exact he
      · have hxbv : xb ∈ verts a := mem_keys.mpr ⟨n, hxb⟩
        have hstabxb := (hstab xb hxbv).2
        have hmem : (xb, nu a xb) ∈ mapped a := by
          rcases nu_eq_or_mem (E := a) (v := xb) with h | h
          · omega
          · exact h
        have hbxb : nu (largeStar a) xb ≤ nu a (nu a xb) := by
          have hedge : (xb, nu a (nu a xb)) ∈ largeStar a :=
            mem_largeStar.mpr ⟨nu a xb, mapped_symm hmem, hl, rfl⟩
          exact nu_le (mem_mapped.mpr (Or.inl hedge))
        have h5 := nu_le_self (E := a) (v := nu a xb)
        rw [htb]
        omega
    have hedgea : (n, ta) ∈ largeStar a := mem_largeStar.mpr ⟨xa, hxa, hxalt, hta⟩
    have hedgeb : (n, tb) ∈ largeStar a := mem_largeStar.mpr ⟨xb, hxb, hxblt, htb⟩
    have hta_mem : ta ∈ nbrs (largeStar a) n := mem_nbrs.mpr hedgea
    have htb_mem : tb ∈ nbrs (largeStar a) n := mem_nbrs.mpr hedgeb
    have hmu_le : groupMin n (nbrs (largeStar a) n) ≤ ta := groupMin_le hta_mem
    have hemit : (tb, groupMin n (nbrs (largeStar a) n)) ∈ smallStar (largeStar a) := by
      apply (mem_smallStar_dec hbdec).mpr
      exact ⟨n, mem_keys.mpr ⟨ta, hedgea⟩, Finset.mem_insert_of_mem htb_mem,
        by omega, rfl⟩
    have htbv : tb ∈ verts a := by
      rcases nu_eq_or_mem (E := a) (v := xb) with h | h
      · rw [htb, h]
        exact mem_keys.mpr ⟨n, hxb⟩
      · rw [htb]
        exact mem_keys.mpr ⟨xb, mapped_symm h⟩
    have hdrop : nu (smallStar (largeStar a)) tb ≤ groupMin n (nbrs (largeStar a) n) :=
      nu_le (mem_mapped.mpr (Or.inl hemit))
    have hstabtb := (hstab tb htbv).1
    omega
  rcases Nat.lt_trichotomy t1 t2 with hlt | heq | hgt
  · exact key x1 t1 x2 t2 hx1 hx1lt ht1 hx2 hx2lt ht2 hlt
  · exact hne12 heq
  · exact key x2 t2 x1 t1 hx2 hx2lt ht2 hx1 hx1lt ht1 hgt

/-- The total of all neighborhood minima strictly decreases across every
iteration that fails the convergence check. -/
lemma potential_drop (a : Finset (ℕ × ℕ))
    (hne : smallStar (largeStar a) ≠ largeStar a) :
    (verts (smallStar (largeStar a))).sum (nu (smallStar (largeStar a))) <
      (verts a).sum (nu a) := by
  have hsub : verts (smallStar (largeStar a)) ⊆ verts a :=
    subset_trans (verts_smallStar_subset _) (verts_largeStar_subset _)
  have h1 : (verts (smallStar (largeStar a))).sum (nu (smallStar (largeStar a))) ≤
      (verts a).sum (nu (smallStar (largeStar a))) :=
    Finset.sum_le_sum_of_subset hsub
  have h2 : (verts a).sum (nu (smallStar (largeStar a))) < (verts a).sum (nu a) := by
    obtain ⟨v, hv, hvlt⟩ := strict_drop a hne
    refine Finset.sum_lt_sum ?_ ⟨v, hv, hvlt⟩
    intro i _
    exact le_trans (nu_smallStar_le (largeStar a) i) (nu_largeStar_le a i)
  omega

/-- The loop always reaches the convergence check's fixed point: the total of
all neighborhood minima is an upper bound on the number of iterations. -/
lemma find_components_aux_terminates :
    ∀ k a, (verts a).sum (nu a) ≤ k → ∃ S, find_components_aux (k + 1) a = some S := by
  intro k
  induction k using Nat.strong_induction_on with
  | _ k ih =>
    intro a hk
    rw [find_components_aux_succ]
    by_cases hc : (smallStar (largeStar a) \ largeStar a) ∪
        (largeStar a \ smallStar (largeStar a)) = ∅
    · rw [if_pos hc]
      exact ⟨_, rfl⟩
    · rw [if_neg hc]
      have hne : smallStar (largeStar a) ≠ largeStar a :=
        fun h => hc (symmdiff_empty_iff.mpr h)
      have hdrop := potential_drop a hne
      obtain ⟨S, hS⟩ := ih (k - 1) (by omega) (smallStar (largeStar a)) (by omega)
      exact ⟨S, by rwa [show k - 1 + 1 = k from by omega] at hS⟩

end Driver

section MultisetBridge

variable {m : Multiset (ℕ × ℕ)} {x : ℕ} {N : Multiset ℕ}

lemma mappedM_toFinset (m : Multiset (ℕ × ℕ)) :
    (mappedM m).toFinset = mapped m.toFinset := by
  apply Finset.ext
  intro ⟨a, b⟩
  rw [Multiset.mem_toFinset, mem_mapped, Multiset.mem_toFinset, Multiset.mem_toFinset]
  simp only [mappedM, Multiset.mem_bind, large_star_map, Multiset.mem_coe,
    List.mem_cons, List.mem_singleton, List.not_mem_nil, or_false]
  constructor
  · rintro ⟨⟨c, d⟩, he, h | h⟩ <;>
      simp only [Prod.mk.injEq] at h <;>
      obtain ⟨h1, h2⟩ := h <;> subst h1 <;> subst h2
    · exact Or.inl he
    · exact Or.inr he
  · rintro (h | h)
    · exact ⟨(a, b), h, Or.inl rfl⟩
    · exact ⟨(b, a), h, Or.inr rfl⟩

lemma nbrsM_toFinset (m : Multiset (ℕ × ℕ)) (x : ℕ) :
    (nbrsM m x).toFinset = nbrs (mapped m.toFinset) x := by
  rw [← mappedM_toFinset]
  simp only [nbrsM, nbrs, Multiset.toFinset_map, Multiset.toFinset_filter]

lemma groupMinM_eq (x : ℕ) (N : Multiset ℕ) :
    groupMinM x N = groupMin x N.toFinset := by
  have hset : (x ::ₘ N).toFinset = insert x N.toFinset := Multiset.toFinset_cons _ _
  unfold groupMinM groupMin
  apply le_antisymm
  · apply Finset.le_min'
    intro y hy
    apply Finset.min'_le
    rw [hset]
    exact hy
  · apply Finset.le_min'
    intro y hy
    apply Finset.min'_le
    rw [← hset]
    exact hy

lemma large_star_reduceM_eq (x : ℕ) (N : Multiset ℕ) :
    large_star_reduceM x N = large_star_reduce x N.toFinset := by
  unfold large_star_reduceM large_star_reduce
  rw [Multiset.toFinset_map, Multiset.toFinset_filter]
  simp only [Multiset.toFinset_cons, groupMinM_eq]

lemma largeStarM_eq (m : Multiset (ℕ × ℕ)) : largeStarM m = largeStar m.toFinset := by
  unfold largeStarM largeStar largeStarF
  apply Finset.biUnion_congr
  · rw [mappedM_toFinset]
    rfl
  · intro x _
    rw [large_star_reduceM_eq, nbrsM_toFinset]

/-- Running the loop on the raw multiset is the same as running it on the
multiset's support: the first `groupByKey`/`min`/`distinct` pass already
quotients out multiplicities. -/
lemma find_components_eq_aux (fuel : ℕ) (m : Multiset (ℕ × ℕ)) :
    find_components fuel m = find_components_aux fuel m.toFinset := by
  cases fuel with
  | zero => rfl
  | succ n =>
    rw [find_components_succ, find_components_aux_succ, largeStarM_eq]

end MultisetBridge

section Invariance

variable {E E1 E2 D : Finset (ℕ × ℕ)} {x n m u v : ℕ} {N1 N2 : Finset ℕ}

lemma groupMin_congr (h : insert x N1 = insert x N2) :
    groupMin x N1 = groupMin x N2 := by
  unfold groupMin
  apply le_antisymm
  · apply Finset.le_min'
    intro y hy
    apply Finset.min'_le
    rw [h]
    exact hy
  · apply Finset.le_min'
    intro y hy
    apply Finset.min'_le
    rw [← h]
    exact hy

lemma find_components_aux_congr (h : largeStar E1 = largeStar E2) :
    ∀ fuel, find_components_aux fuel E1 = find_components_aux fuel E2 := by
  intro fuel
  cases fuel with
  | zero => rfl
  | succ n =>
    rw [find_components_aux_succ, find_components_aux_succ, h]

/-- Self-loop pairs are invisible to the large-star phase: they only re-add
the key itself to its own group, which changes neither the group minimum nor
the set of strictly larger members. -/
lemma largeStar_union_selfloops (hD : ∀ p ∈ D, p.1 = p.2) :
    largeStar (E ∪ D) = largeStar E := by
  have hmapD : ∀ u v, (u, v) ∈ mapped D → u = v := by
    intro u v h
    rcases mem_mapped.mp h with h | h
    · exact hD _ h
    · exact (hD _ h).symm
  have hmapU : ∀ u v, (u, v) ∈ mapped (E ∪ D) ↔
      (u, v) ∈ mapped E ∨ (u, v) ∈ mapped D := by
    intro u v
    rw [mem_mapped, mem_mapped, mem_mapped]
    constructor
    · rintro (h | h)
      · rcases Finset.mem_union.mp h with h | h
        · exact Or.inl (Or.inl h)
        · exact Or.inr (Or.inl h)
      · rcases Finset.mem_union.mp h with h | h
        · exact Or.inl (Or.inr h)
        · exact Or.inr (Or.inr h)
    · rintro ((h | h) | (h | h))
      · exact Or.inl (Finset.mem_union_left _ h)
      · exact Or.inr (Finset.mem_union_left _ h)
      · exact Or.inl (Finset.mem_union_right _ h)
      · exact Or.inr (Finset.mem_union_right _ h)
  have hins : ∀ x, insert x (nbrs (mapped (E ∪ D)) x) =
      insert x (nbrs (mapped E) x) := by
    intro x
    apply Finset.ext
    intro y
    simp only [Finset.mem_insert, mem_nbrs]
    constructor
    · rintro (h | h)
      · exact Or.inl h
      · rcases (hmapU x y).mp h with h | h
        · exact Or.inr h
        · exact Or.inl (hmapD x y h).symm
    · rintro (h | h)
      · exact Or.inl h
      · exact Or.inr ((hmapU x y).mpr (Or.inl h))
  have hnu : ∀ x, nu (E ∪ D) x = nu E x := by
    intro x
    exact groupMin_congr (hins x)
  apply Finset.ext
  intro ⟨a, b⟩
  rw [mem_largeStar, mem_largeStar]
  constructor
  · rintro ⟨x, hx, hlt, hb⟩
    rcases (hmapU x a).mp hx with h | h
    · exact ⟨x, h, hlt, hb.trans (hnu x)⟩
    · exact absurd (hmapD x a h) (by omega)
  · rintro ⟨x, hx, hlt, hb⟩
    exact ⟨x, (hmapU x a).mpr (Or.inl hx), hlt, hb.trans (hnu x).symm⟩

lemma mapped_insert_swap (p : ℕ × ℕ) (F : Finset (ℕ × ℕ)) :
    mapped (insert (p.2, p.1) F) = mapped (insert p F) := by
  apply Finset.ext
  intro ⟨a, b⟩
  rw [mem_mapped, mem_mapped]
  simp only [Finset.mem_insert, Prod.ext_iff]
  constructor
  · rintro ((⟨h1, h2⟩ | h) | (⟨h1, h2⟩ | h))
    · exact Or.inr (Or.inl ⟨h2, h1⟩)
    · exact Or.inl (Or.inr h)
    · exact Or.inl (Or.inl ⟨h2, h1⟩)
    · exact Or.inr (Or.inr h)
  · rintro ((⟨h1, h2⟩ | h) | (⟨h1, h2⟩ | h))
    · exact Or.inr (Or.inl ⟨h2, h1⟩)
    · exact Or.inl (Or.inr h)
    · exact Or.inl (Or.inl ⟨h2, h1⟩)
    · exact Or.inr (Or.inr h)

lemma largeStar_congr_mapped (h : mapped E1 = mapped E2) :
    largeStar E1 = largeStar E2 := by
  unfold largeStar
  rw [h]

end Invariance

section Converged

variable {E S : Finset (ℕ × ℕ)} {n t v : ℕ}

/-- At a converged set, every node that is connected to a strictly smaller
node in the reference graph has at least one stored entry. -/
lemma converged_exists_entry (hdec : Decreasing S) (hfix : smallStar S = S)
    (hconn : ∀ u v, conn S u v ↔ conn E u v)
    (h : ∃ v, conn E n v ∧ v < n) : ∃ t, (n, t) ∈ S := by
  obtain ⟨v, hc, hv⟩ := h
  by_contra hroot
  push_neg at hroot
  have := root_min hdec hfix (fun t ht => hroot t ht) ((hconn n v).mpr hc)
  omega

/-- At a converged set, a node that is minimal in its component of the
reference graph has no stored entry. -/
lemma converged_min_no_entry (hdec : Decreasing S)
    (hconn : ∀ u v, conn S u v ↔ conn E u v)
    (hmin : ∀ v, conn E n v → n ≤ v) : ∀ t, (n, t) ∉ S := by
  intro t ht
  have h1 : conn E n t := (hconn n t).mp (conn_of_mem ht)
  have h2 := hmin t h1
  have h3 := hdec _ ht
  simp only at h3
  omega

end Converged

section SpecModelled

/-- Modelled from the spec: the source's `find_components` loop is an
uncapped `while True`; the spec's ConvergenceDriver instead demands "a
configurable hard iteration cap" with "fatal error, reported with the last
iteration's change count" when the cap is exceeded.  This driver follows the
spec's words; the argument after the cap carries the change count of the most
recent iteration. -/
def find_components_capped_aux : ℕ → ℕ → Finset (ℕ × ℕ) → Except ℕ (Finset (ℕ × ℕ))
  | 0, last, _ => Except.error last
  | cap + 1, _, a =>
    let b := largeStar a
    let a2 := smallStar b
    let changes := (a2 \ b) ∪ (b \ a2)
    if changes = ∅ then Except.ok a2
    else find_components_capped_aux cap changes.card a2

/-- Modelled from the spec: the capped ConvergenceDriver entry point, with
the iteration cap as its configuration surface. -/
def find_components_capped (cap : ℕ) (m : Multiset (ℕ × ℕ)) :
    Except ℕ (Finset (ℕ × ℕ)) :=
  find_components_capped_aux cap 0 m.toFinset

end SpecModelled

section ConcreteInputs

/-- The spec's concrete scenario C: the five-node chain. -/
def chainInput : Multiset (ℕ × ℕ) := {(1, 2), (2, 3), (3, 4), (4, 5)}

/-- What `find_components` actually returns on the chain. -/
def chainOutput : Finset (ℕ × ℕ) := {(2, 1), (3, 1), (4, 2), (5, 3)}

/-- The spec's concrete scenario A: two components `{1,2,3}` and `{4,5}`. -/
def scenarioA : Multiset (ℕ × ℕ) := {(1, 2), (2, 3), (4, 5)}

/-- The spec's concrete scenario B: the star centered at `5`. -/
def starB : Multiset (ℕ × ℕ) := {(5, 1), (5, 2), (5, 3), (5, 4)}

lemma chain_conn_5_1 : conn chainInput.toFinset 5 1 := by
  have s54 : adj chainInput.toFinset 5 4 := Or.inr (by decide)
  have s43 : adj chainInput.toFinset 4 3 := Or.inr (by decide)
  have s32 : adj chainInput.toFinset 3 2 := Or.inr (by decide)
  have s21 : adj chainInput.toFinset 2 1 := Or.inr (by decide)
  exact Relation.ReflTransGen.head s54 (Relation.ReflTransGen.head s43
    (Relation.ReflTransGen.head s32 (Relation.ReflTransGen.single s21)))

end ConcreteInputs

section Claims

/-- C1 (code bug witnessed): on the chain `{(1,2),(2,3),(3,4),(4,5)}`,
`find_components` converges to `{(2,1),(3,1),(4,2),(5,3)}`: node `5` is
assigned representative `3` even though node `1` is reachable from `5` in the
input edge set and `1 < 3`, so `3` is not the true minimum of `5`'s
component, contradicting the claimed component minimality and the claimed
agreement with a sequential union-find reference. -/
theorem C1_chain_returns_non_minimum :
    find_components 10 chainInput = some chainOutput ∧
    (5, 3) ∈ chainOutput ∧ conn chainInput.toFinset 5 1 ∧ 1 < 3 :=
  ⟨by decide, by decide, chain_conn_5_1, by omega⟩

/-- C2 (counterexample): on the spec's scenario A input `{(1,2),(2,3),(4,5)}`
the converged output is `{(2,1),(3,1),(5,4)}`; node `1` appears in an input
edge yet has no output pair, refuting "for every NodeID that appears in any
input edge, exactly one pair" and the claimed output `{1:1,2:1,3:1,4:4,5:4}`. -/
theorem C2_representative_has_no_entry :
    find_components 10 scenarioA = some {(2, 1), (3, 1), (5, 4)} ∧
    (1, 2) ∈ scenarioA ∧
    (∀ t, (1, t) ∉ ({(2, 1), (3, 1), (5, 4)} : Finset (ℕ × ℕ))) := by
  refine ⟨by decide, by decide, ?_⟩
  intro t ht
  simp only [Finset.mem_insert, Finset.mem_singleton, Prod.mk.injEq] at ht
  omega

/-- C2 (amended): for every NodeID connected to some strictly smaller NodeID
in the input graph, the converged output contains exactly one pair for it,
while every NodeID that is minimal in its component (and every NodeID
mentioned in no edge) has no output pair.  In scenario A this yields
`{2:1, 3:1, 5:4}` with no entries for `1`, `4`, or `6`. -/
theorem C2_mapping_domain (m : Multiset (ℕ × ℕ)) (fuel : ℕ) (S : Finset (ℕ × ℕ))
    (h : find_components fuel m = some S) :
    (∀ n, (∃ v, conn m.toFinset n v ∧ v < n) → ∃! t, (n, t) ∈ S) ∧
    (∀ n, (∀ v, conn m.toFinset n v → n ≤ v) → ∀ t, (n, t) ∉ S) := by
  rw [find_components_eq_aux] at h
  obtain ⟨hdec, hfix, hconn, _⟩ := find_components_aux_spec _ _ _ h
  constructor
  · intro n hn
    obtain ⟨t, ht⟩ := converged_exists_entry hdec hfix hconn hn
    exact ⟨t, ht, fun t' ht' => fixed_functional hdec hfix n t' t ht' ht⟩
  · intro n hmin
    exact converged_min_no_entry hdec hconn hmin

/-- C2 witness: the amended mapping-domain property evaluated on the input
`{(0,1),(1,2)}`, whose converged output is `{(1,0),(2,0)}`: the non-minimal
node `1` has exactly one entry and the component minimum `0` has none. -/
theorem C2_mapping_domain_witness :
    (∃! t, (1, t) ∈ ({(1, 0), (2, 0)} : Finset (ℕ × ℕ))) ∧
    (0, 5) ∉ ({(1, 0), (2, 0)} : Finset (ℕ × ℕ)) :=
  ⟨(C2_mapping_domain {(0, 1), (1, 2)} 10 {(1, 0), (2, 0)} (by decide)).1 1
      ⟨0, Relation.ReflTransGen.single (Or.inr (by decide)), by omega⟩,
   (C2_mapping_domain {(0, 1), (1, 2)} 10 {(1, 0), (2, 0)} (by decide)).2 0
      (fun v _ => Nat.zero_le v) 5⟩

/-- C3: for every finite input multiset of edges, the alternating
large-star/small-star loop reaches its stopping condition after finitely many
iterations: some finite fuel makes `find_components` return a result. -/
theorem C3_find_components_terminates (m : Multiset (ℕ × ℕ)) :
    ∃ fuel S, find_components fuel m = some S := by
  obtain ⟨S, hS⟩ := find_components_aux_terminates
    ((verts m.toFinset).sum (nu m.toFinset)) m.toFinset (le_refl _)
  exact ⟨_, S, by rw [find_components_eq_aux]; exact hS⟩

/-- C4 (counterexample): the star input needs two iterations; the code,
configured with no cap at all, simply runs the second iteration and returns
normally, whereas the spec's capped driver with cap 1 must fail fatally with
the last iteration's change count (here 6).  No input ever makes the source
loop surface an error. -/
theorem C4_no_cap_counterexample :
    find_components 1 starB = none ∧
    find_components 2 starB = some {(5, 1), (2, 1), (3, 1), (4, 1)} ∧
    find_components_capped 1 starB = Except.error 6 :=
  ⟨by decide, by decide, by rfl⟩

/-- C4 (amended): the driver loop enforces no iteration cap and has no error
path: it runs until the symmetric difference is empty, and granting any
additional iteration budget never changes a converged result. -/
theorem C4_no_iteration_cap (m : Multiset (ℕ × ℕ)) (fuel : ℕ)
    (S : Finset (ℕ × ℕ)) (h : find_components fuel m = some S) (k : ℕ) :
    find_components (fuel + k) m = some S := by
  rw [find_components_eq_aux] at h ⊢
  exact find_components_aux_mono _ _ _ h k

/-- C4 witness: the cap-free behavior evaluated on the star input. -/
theorem C4_no_iteration_cap_witness :
    find_components (2 + 3) starB = some {(5, 1), (2, 1), (3, 1), (4, 1)} :=
  C4_no_iteration_cap starB 2 _ (by decide) 3

/-- C5 (code bug witnessed): the set at which `find_components` stops on the
chain input is not a fixed point of the composed large-star/small-star
transform: re-running the two phases on the converged output produces a
different edge set, refuting the claimed idempotence at convergence. -/
theorem C5_not_idempotent :
    find_components 10 chainInput = some chainOutput ∧
    smallStar (largeStar chainOutput) ≠ chainOutput :=
  ⟨by decide, by decide⟩

/-- C6 (counterexample): the large-star pass over the chain emits the edge
`(5,3)` although node `1` lies in `5`'s component, so the emitted `m = 3` is
not "no larger than the true minimum NodeID of `n`'s connected component"
(`3 ≤ 1` fails). -/
theorem C6_emitted_above_component_min :
    (5, 3) ∈ largeStar chainInput.toFinset ∧
    conn chainInput.toFinset 5 1 ∧ ¬ (3 ≤ 1) :=
  ⟨by decide, chain_conn_5_1, by omega⟩

/-- C6 (amended): every edge `(n, m)` emitted by the large-star pass
satisfies `m ≤ n`, with `m` a member of `n`'s connected component (hence no
smaller than the true component minimum), and each node's neighborhood
minimum is monotone non-increasing across both phases of every iteration. -/
theorem C6_large_star_bound (E : Finset (ℕ × ℕ)) :
    (∀ n m, (n, m) ∈ largeStar E → m ≤ n ∧ conn E n m) ∧
    (∀ v, nu (largeStar E) v ≤ nu E v) ∧
    (∀ v, nu (smallStar E) v ≤ nu E v) :=
  ⟨fun _ _ h => ⟨le_of_lt (largeStar_decreasing h), largeStar_sound (Or.inl h)⟩,
   nu_largeStar_le E, nu_smallStar_le E⟩

/-- C6 witness: the amended large-star guarantee evaluated at the emitted
edge `(5,3)` of the chain. -/
theorem C6_large_star_bound_witness :
    3 ≤ 5 ∧ conn chainInput.toFinset 5 3 :=
  (C6_large_star_bound chainInput.toFinset).1 5 3 (by decide)

/-- C7: every entry `(n, t)` of any converged `find_components` output
satisfies `t < n`, so an entry with node equal to its representative is
structurally impossible, for every input. -/
theorem C7_no_self_representative (m : Multiset (ℕ × ℕ)) (fuel : ℕ)
    (S : Finset (ℕ × ℕ)) (h : find_components fuel m = some S) :
    ∀ n t, (n, t) ∈ S → t < n ∧ n ≠ t := by
  rw [find_components_eq_aux] at h
  obtain ⟨hdec, _, _, _⟩ := find_components_aux_spec _ _ _ h
  intro n t ht
  have := hdec _ ht
  simp only at this
  omega

/-- C7 witness: the self-representative impossibility evaluated on
scenario A at the returned entry `(2,1)`. -/
theorem C7_no_self_representative_witness : 1 < 2 ∧ 2 ≠ 1 :=
  C7_no_self_representative scenarioA 10 {(2, 1), (3, 1), (5, 4)} (by decide)
    2 1 (by decide)

/-- C8: self-loop pairs in the input are silently irrelevant: adding any
multiset of self-pairs to the input leaves the result of `find_components`
unchanged for every fuel. -/
theorem C8_selfloops_dropped (m s : Multiset (ℕ × ℕ)) (fuel : ℕ)
    (hs : ∀ p ∈ s, p.1 = p.2) :
    find_components fuel (m + s) = find_components fuel m := by
  rw [find_components_eq_aux, find_components_eq_aux, Multiset.toFinset_add]
  apply find_components_aux_congr
  exact largeStar_union_selfloops (fun p hp => hs p (Multiset.mem_toFinset.mp hp))

/-- C8 witness: adding the self-loop `(3,3)` to the single edge `(1,2)`. -/
theorem C8_selfloops_dropped_witness :
    find_components 10 (({(1, 2)} : Multiset (ℕ × ℕ)) + {(3, 3)}) =
      find_components 10 ({(1, 2)} : Multiset (ℕ × ℕ)) :=
  C8_selfloops_dropped {(1, 2)} {(3, 3)} 10 (by decide)

/-- C9: the result of `find_components` is invariant under duplicating an
edge already present and under swapping the endpoint order of any edge, and
the input `{(1,2),(2,1),(1,2)}` yields the same output as `{(1,2)}`. -/
theorem C9_duplicate_and_reversed_edges :
    (∀ (m : Multiset (ℕ × ℕ)) (p : ℕ × ℕ) (fuel : ℕ), p ∈ m →
      find_components fuel (p ::ₘ m) = find_components fuel m) ∧
    (∀ (m : Multiset (ℕ × ℕ)) (p : ℕ × ℕ) (fuel : ℕ),
      find_components fuel ((p.2, p.1) ::ₘ m) = find_components fuel (p ::ₘ m)) ∧
    find_components 10 ({(1, 2), (2, 1), (1, 2)} : Multiset (ℕ × ℕ)) =
      find_components 10 ({(1, 2)} : Multiset (ℕ × ℕ)) := by
  refine ⟨?_, ?_, by decide⟩
  · intro m p fuel hp
    rw [find_components_eq_aux, find_components_eq_aux, Multiset.toFinset_cons,
      Finset.insert_eq_self.mpr (Multiset.mem_toFinset.mpr hp)]
  · intro m p fuel
    rw [find_components_eq_aux, find_components_eq_aux, Multiset.toFinset_cons,
      Multiset.toFinset_cons]
    exact find_components_aux_congr
      (largeStar_congr_mapped (mapped_insert_swap p m.toFinset)) fuel

/-- C9 witness: the duplicate-edge invariance evaluated at `(1,2)`. -/
theorem C9_duplicate_and_reversed_edges_witness :
    find_components 10 (((1, 2) : ℕ × ℕ) ::ₘ {(1, 2)}) =
      find_components 10 ({(1, 2)} : Multiset (ℕ × ℕ)) :=
  C9_duplicate_and_reversed_edges.1 {(1, 2)} (1, 2) 10 (by decide)

/-- C10: every output pair `(n, t)` of `find_components` has `t` strictly
smaller than `n`, and the minimum NodeID of any connected component of the
input never occurs as the left element of an output pair: representatives
have no entry of their own. -/
theorem C10_strict_and_min_absent (m : Multiset (ℕ × ℕ)) (fuel : ℕ)
    (S : Finset (ℕ × ℕ)) (h : find_components fuel m = some S) :
    (∀ n t, (n, t) ∈ S → t < n) ∧
    (∀ r, (∀ v, conn m.toFinset r v → r ≤ v) → ∀ t, (r, t) ∉ S) := by
  rw [find_components_eq_aux] at h
  obtain ⟨hdec, _, hconn, _⟩ := find_components_aux_spec _ _ _ h
  constructor
  · intro n t ht
    have := hdec _ ht
    simpa using this
  · intro r hr
    exact converged_min_no_entry hdec hconn hr

/-- C10 witness: the strict-decrease and absent-minimum properties evaluated
on the input `{(0,1),(1,2)}`: output entry `(1,0)` decreases strictly, and
the component minimum `0` has no entry. -/
theorem C10_strict_and_min_absent_witness :
    0 < 1 ∧ (0, 5) ∉ ({(1, 0), (2, 0)} : Finset (ℕ × ℕ)) :=
  ⟨(C10_strict_and_min_absent {(0, 1), (1, 2)} 10 {(1, 0), (2, 0)} (by decide)).1
      1 0 (by decide),
   (C10_strict_and_min_absent {(0, 1), (1, 2)} 10 {(1, 0), (2, 0)} (by decide)).2
      0 (fun v _ => Nat.zero_le v) 5⟩

end Claims

end SGCC
